import Mathlib

/-!
Verification of the workspace path-security guard of the Outlook MCP server
(`src/workspace_utils.py`): `get_workspace`, `resolve_workspace_file`,
`to_filename` and `is_workspace_configured`, together with faithful models of
the POSIX `os.path` primitives they call (`normpath`, `join`, `realpath`,
`commonpath`, `relpath`, `basename`, `expanduser`, `isabs`, `isdir`,
`exists`) over an explicit filesystem value that can contain symlinks.

Strings are Python strings; character-level work is done on `List Char`
(`String.data`) so the CPython string algorithms transfer directly.
-/

namespace WorkspaceGuard

/-- Error kinds raised by the guard (the Python exception classes
`ValueError`, `PermissionError`, `FileNotFoundError`). -/
inductive PyErr where
  | valueError (msg : String)
  | permissionError (msg : String)
  | fileNotFoundError (msg : String)
  deriving DecidableEq, Repr

/-- A filesystem node: directory, regular file, or symbolic link with a
target string (the value `os.readlink` would return). -/
inductive FSNode where
  | dir
  | file
  | symlink (target : String)
  deriving DecidableEq, Repr

/-- A filesystem: finite map from absolute paths (with every parent already
fully resolved, which is how `os.lstat` is reached from `_joinrealpath`) to
nodes.  An absent key means `lstat` raises `OSError`. -/
abbrev FS := List (String × FSNode)

/-- Process state visible to the guard: the `WORKSPACE_PATH` environment
variable, the `HOME` environment variable, and the current working
directory returned by `os.getcwd()`. -/
structure Env where
  workspace_path : Option String
  home : Option String
  cwd : String
  deriving DecidableEq, Repr

instance : DecidableEq (Except PyErr String) := fun a b =>
  match a, b with
  | .ok x, .ok y =>
    if h : x = y then .isTrue (by rw [h]) else .isFalse (by simp [h])
  | .ok _, .error _ => .isFalse (by simp)
  | .error _, .ok _ => .isFalse (by simp)
  | .error x, .error y =>
    if h : x = y then .isTrue (by rw [h]) else .isFalse (by simp [h])

/-! ### Character-level primitives (CPython `str` methods on `List Char`) -/

/-- Python `str.isspace` characters relevant to `str.strip()` (ASCII part;
the guard only ever tests strings for being whitespace-only). -/
def pySpace (c : Char) : Bool :=
  c == ' ' || c == '\t' || c == '\n' || c == '\r' || c == '\x0b' || c == '\x0c'

/-- Python `s.strip()` on character lists. -/
def stripL (l : List Char) : List Char :=
  ((l.dropWhile pySpace).reverse.dropWhile pySpace).reverse

/-- Python `a.isPrefixOf`-style check: is `p` a prefix of `l`?
(`str.startswith`). -/
def preB (p l : List Char) : Bool :=
  match p, l with
  | [], _ => true
  | _ :: _, [] => false
  | a :: as, b :: bs => a == b && preB as bs

/-- Python `pat in s` (substring containment) on character lists. -/
def infB (pat : List Char) : List Char → Bool
  | [] => preB pat []
  | c :: ls => preB pat (c :: ls) || infB pat ls

/-- Python `s.split(sep)` (single-character separator), keeping empty
fields, as a head-part/remaining-parts pair. -/
def splitChar1 (sep : Char) : List Char → List Char × List (List Char)
  | [] => ([], [])
  | c :: cs =>
    if c = sep then
      ([], (splitChar1 sep cs).1 :: (splitChar1 sep cs).2)
    else
      ((c :: (splitChar1 sep cs).1), (splitChar1 sep cs).2)

/-- Python `s.split(sep)`: always a non-empty list of fields. -/
def splitChar (sep : Char) (l : List Char) : List (List Char) :=
  (splitChar1 sep l).1 :: (splitChar1 sep l).2

/-- Python `s.partition('/')` restricted to the pieces `_joinrealpath`
uses: the text before the first separator and the text after it
(`("x", "")` when there is no separator, matching `name, _, rest`). -/
def partitionSepL (l : List Char) : List Char × List Char :=
  ((splitChar1 '/' l).1, l.drop ((splitChar1 '/' l).1.length + 1))

/-- Longest common prefix of two lists.  `posixpath.commonpath` and
`genericpath.commonprefix` compute this for a two-element input via
`min`/`max` plus a first-mismatch scan, which agrees with the direct
symmetric computation. -/
def commonPrefixL {α : Type} [DecidableEq α] : List α → List α → List α
  | a :: as, b :: bs => if a = b then a :: commonPrefixL as bs else []
  | _, _ => []

/-! ### `posixpath` primitives -/

/-- `posixpath.isabs`: the path begins with `'/'`. -/
def pyIsabsL (l : List Char) : Bool :=
  l.head? == some '/'

/-- `os.path.isabs` on strings. -/
def pyIsabs (s : String) : Bool := pyIsabsL s.data

/-- `str.startswith` on strings. -/
def pyStartsWith (s pre : String) : Bool := preB pre.data s.data

/-- Python `pat in s` on strings. -/
def strContains (s pat : String) : Bool := infB pat.data s.data

/-- `posixpath.join` for two components, on character lists:
if `b` is absolute it replaces `a`; otherwise a single separator is
inserted unless `a` is empty or already ends with one. -/
def joinL (a b : List Char) : List Char :=
  if pyIsabsL b then b
  else if a = [] || a.getLast? = some '/' then a ++ b
  else a ++ '/' :: b

/-- `os.path.join` for two arguments, on strings. -/
def pyJoin2 (a b : String) : String := ⟨joinL a.data b.data⟩

/-- Number of leading slashes `posixpath.normpath` keeps: POSIX allows
one or two initial slashes but treats three or more as a single one. -/
def initSlashes (l : List Char) : Nat :=
  if pyIsabsL l then
    if l.take 2 = ['/', '/'] ∧ l.take 3 ≠ ['/', '/', '/'] then 2 else 1
  else 0

/-- The body of `normpath`'s component loop: skip empty and `.`
components, append ordinary ones, and on `..` either append (when it
cannot be cancelled) or pop the previous component. -/
def normStep (initialSlashes : Nat) (acc : List (List Char)) (comp : List Char) :
    List (List Char) :=
  if comp = [] ∨ comp = ['.'] then acc
  else if comp ≠ ['.', '.'] ∨ (initialSlashes = 0 ∧ acc = []) ∨
      (acc ≠ [] ∧ acc.getLast? = some ['.', '.']) then acc ++ [comp]
  else acc.dropLast

/-- `posixpath.normpath` on character lists, following CPython: collapse
separators and `.` components, resolve `..` purely syntactically, keep a
double (but not triple) leading slash. -/
def normpathL (l : List Char) : List Char :=
  if l = [] then ['.']
  else if List.replicate (initSlashes l) '/' ++
      List.intercalate ['/'] ((splitChar '/' l).foldl (normStep (initSlashes l)) []) = []
    then ['.']
  else List.replicate (initSlashes l) '/' ++
    List.intercalate ['/'] ((splitChar '/' l).foldl (normStep (initSlashes l)) [])

/-- `os.path.normpath` on strings. -/
def normpath (s : String) : String := ⟨normpathL s.data⟩

/-- `posixpath.split` (used by `_joinrealpath` for `..` handling): split
off the final component; the head keeps no trailing slash unless it is
all slashes. -/
def pySplitL (p : List Char) : List Char × List Char :=
  let tail := (p.reverse.takeWhile (· ≠ '/')).reverse
  let head := p.take (p.length - tail.length)
  if head ≠ [] ∧ ¬ head.all (· = '/') then
    ((head.reverse.dropWhile (· = '/')).reverse, tail)
  else (head, tail)

/-- `posixpath.basename`: everything after the last slash. -/
def pyBasename (s : String) : String := ⟨(splitChar '/' s.data).getLastD []⟩

/-- `posixpath.abspath`: make absolute using the current working
directory, then normalize. -/
def abspathS (cwd : String) (s : String) : String :=
  ⟨normpathL (if pyIsabsL s.data then s.data else joinL cwd.data s.data)⟩

/-- `posixpath.expanduser` against the modelled environment.  `~user`
lookups and the `pwd`-database fallback for an unset `HOME` are modelled
as absent database entries, in which case CPython returns the path
unchanged. -/
def expanduser (env : Env) (path : String) : String :=
  if ¬ pyStartsWith path "~" then path
  else
    let i : Nat :=
      match (path.data.drop 1).findIdx? (· = '/') with
      | some j => j + 1
      | none => path.data.length
    if i = 1 then
      match env.home with
      | none => path
      | some userhome =>
        let uh := (userhome.data.reverse.dropWhile (· = '/')).reverse
        let r := uh ++ path.data.drop i
        if r = [] then "/" else ⟨r⟩
    else path

/-- `posixpath.commonpath` for the two-element list the guard passes,
including its `ValueError` on mixed absolute/relative input. -/
def commonpath2 (p1 p2 : String) : Except PyErr String :=
  if pyIsabsL p1.data ≠ pyIsabsL p2.data then
    .error (.valueError "Can\x27t mix absolute and relative paths")
  else
    let s1 := (splitChar '/' p1.data).filter (fun c => c ≠ [] ∧ c ≠ ['.'])
    let s2 := (splitChar '/' p2.data).filter (fun c => c ≠ [] ∧ c ≠ ['.'])
    let common := commonPrefixL s1 s2
    .ok ⟨(if pyIsabsL p1.data then ['/'] else []) ++ List.intercalate ['/'] common⟩

/-- `posixpath.relpath path start` (with explicit current directory for
`abspath`), including its `ValueError` on an empty path.  The final
`join(*rel_list)` equals an interleaving with single slashes because all
components are non-empty and slash-free. -/
def pyRelpath (cwd path start : String) : Except PyErr String :=
  if path = "" then .error (.valueError "no path specified")
  else
    let start_abs := abspathS cwd start
    let path_abs := abspathS cwd path
    let start_list := (splitChar '/' start_abs.data).filter (fun c => c ≠ [])
    let path_list := (splitChar '/' path_abs.data).filter (fun c => c ≠ [])
    let i := (commonPrefixL start_list path_list).length
    let rel_list :=
      List.replicate (start_list.length - i) ['.', '.'] ++ path_list.drop i
    if rel_list = [] then .ok "."
    else .ok ⟨List.intercalate ['/'] rel_list⟩

/-! ### `os.path.realpath` over the modelled filesystem

CPython's `posixpath._joinrealpath` (non-strict), as a single
fuel-indexed function.  The `Bool` tag distinguishes a fresh invocation
(which handles an absolute `rest` by restarting at the root, exactly the
prologue of `_joinrealpath`) from the component loop.  `seen` is the memo
dictionary: `none` marks an in-progress link (a loop), `some p` a link
already resolved to `p`.  Fuel only bounds the recursion; it is chosen
large enough that it never runs out on the filesystems evaluated here
(every loop step consumes a character of the pending text, and every
symlink is expanded at most once thanks to `seen`). -/

/-- State of `_joinrealpath`'s `seen` dictionary. -/
abbrev Seen := List (List Char × Option (List Char))

/-- `posixpath._joinrealpath` with fuel (tag `true` = function entry,
tag `false` = the `while rest` loop). -/
def jrp (fs : FS) : Nat → Bool → List Char → List Char → Seen →
    Option (List Char × Bool × Seen)
  | 0, _, _, _, _ => none
  | fuel + 1, true, path, rest, seen =>
    if pyIsabsL rest then jrp fs fuel false ['/'] (rest.drop 1) seen
    else jrp fs fuel false path rest seen
  | fuel + 1, false, path, rest, seen =>
    if rest = [] then some (path, true, seen)
    else
      let name := (partitionSepL rest).1
      let rest' := (partitionSepL rest).2
      if name = [] ∨ name = ['.'] then jrp fs fuel false path rest' seen
      else if name = ['.', '.'] then
        let path' :=
          if path ≠ [] then
            let hd := (pySplitL path).1
            let tl := (pySplitL path).2
            if tl = ['.', '.'] then joinL (joinL hd ['.', '.']) ['.', '.']
            else hd
          else ['.', '.']
        jrp fs fuel false path' rest' seen
      else
        let newpath := joinL path name
        match List.lookup (⟨newpath⟩ : String) fs with
        | some (.symlink target) =>
          match List.lookup newpath seen with
          | some (some cached) => jrp fs fuel false cached rest' seen
          | some none => some (joinL newpath rest', false, seen)
          | none =>
            match jrp fs fuel true path target.data ((newpath, none) :: seen) with
            | none => none
            | some (rpath, ok, seen') =>
              if ok then jrp fs fuel false rpath rest' ((newpath, some rpath) :: seen')
              else some (joinL rpath rest', false, seen')
        | _ => jrp fs fuel false newpath rest' seen

/-- Fuel sufficient for `jrp` on the given input: text length plus the
total size of the filesystem table (each symlink target is traversed at
most once) plus slack, with a generous factor. -/
def realpathFuel (fs : FS) (s : String) : Nat :=
  4 * (s.data.length +
    fs.foldl (fun n e =>
      n + e.1.data.length +
        (match e.2 with
         | .symlink t => t.data.length
         | _ => 0) + 8) 0 + 16)

/-- `os.path.realpath` (non-strict): `_joinrealpath('', filename, {})`
followed by `abspath`. -/
def realpathS (fs : FS) (cwd : String) (filename : String) : String :=
  match jrp fs (realpathFuel fs filename) true [] filename.data [] with
  | some (path, _, _) => abspathS cwd ⟨path⟩
  | none => abspathS cwd filename

/-- `os.path.isdir`: `stat` follows symlinks, so look the fully resolved
path up in the table and check for a directory. -/
def pyIsdir (fs : FS) (cwd : String) (p : String) : Bool :=
  match List.lookup (realpathS fs cwd p) fs with
  | some .dir => true
  | _ => false

/-- `os.path.exists`: `stat` (following symlinks) succeeds. -/
def pyExists (fs : FS) (cwd : String) (p : String) : Bool :=
  (List.lookup (realpathS fs cwd p) fs).isSome

/-! ### The guard (`workspace_utils.py`) -/

/-- Message of the `PermissionError` for an unset `WORKSPACE_PATH`. -/
def cfgUnsetMsg : String :=
  "Server configuration error: WORKSPACE_PATH environment variable is not set. File access tools are disabled. Set WORKSPACE_PATH to a folder you trust."

/-- Message of the `PermissionError` for a `WORKSPACE_PATH` that is not a
directory (interpolates the raw configured value, not the resolved one). -/
def cfgBadMsg (workspace : String) : String :=
  "Server configuration error: WORKSPACE_PATH \x27" ++ workspace ++
    "\x27 does not exist or is not a directory."

/-- Message of the empty-filename `ValueError`. -/
def emptyMsg : String := "Filename cannot be empty."

/-- Message of the absolute-path `PermissionError`. -/
def absMsg : String :=
  "Access denied: Absolute paths are not allowed. Provide just the filename (e.g., \x27file.txt\x27) or a relative path inside the workspace."

/-- Message of the path-traversal `PermissionError`. -/
def travMsg : String := "Access denied: Path traversal is not allowed."

/-- Message of the cross-drive `PermissionError`. -/
def driveMsg : String := "Access denied: File is on a different drive than workspace."

/-- Message of the escapes-workspace `PermissionError`. -/
def outsideMsg : String := "Access denied: File resolves outside the workspace."

/-- Message of the `FileNotFoundError`, built from the caller's filename. -/
def nfMsg (filename : String) : String :=
  "File not found in workspace: " ++ filename

/-- The guard's first check: `not filename or not filename.strip()`. -/
def blankCheck (filename : String) : Bool :=
  filename == "" || (⟨stripL filename.data⟩ : String) == ""

/-- The guard's traversal check on the normalized filename:
`normalized.startswith("..") or os.sep + ".." in normalized`. -/
def travCheck (normalized : String) : Bool :=
  pyStartsWith normalized ".." || strContains normalized "/.."

/-- `get_workspace`: read `WORKSPACE_PATH`, fail if unset or empty,
expand `~`, resolve to a real path, fail unless it is a directory. -/
def get_workspace (env : Env) (fs : FS) : Except PyErr String :=
  match env.workspace_path with
  | none => .error (.permissionError cfgUnsetMsg)
  | some workspace =>
    if workspace = "" then .error (.permissionError cfgUnsetMsg)
    else
      let resolved := realpathS fs env.cwd (expanduser env workspace)
      if pyIsdir fs env.cwd resolved then .ok resolved
      else .error (.permissionError (cfgBadMsg workspace))

/-- `resolve_workspace_file(filename, must_exist)`: securely resolve a
filename to an absolute path inside the workspace. -/
def resolve_workspace_file (env : Env) (fs : FS) (filename : String)
    (must_exist : Bool) : Except PyErr String :=
  if blankCheck filename then .error (.valueError emptyMsg)
  else
    match get_workspace env fs with
    | .error e => .error e
    | .ok ws_real =>
      if pyIsabs filename then .error (.permissionError absMsg)
      else
        let normalized := normpath filename
        if travCheck normalized then .error (.permissionError travMsg)
        else
          let abs_path := realpathS fs env.cwd (pyJoin2 ws_real normalized)
          match commonpath2 abs_path ws_real with
          | .error _ => .error (.permissionError driveMsg)
          | .ok common =>
            if common ≠ ws_real then .error (.permissionError outsideMsg)
            else if must_exist && !(pyExists fs env.cwd abs_path) then
              .error (.fileNotFoundError (nfMsg filename))
            else .ok abs_path

/-- `to_filename`: strip the workspace root from an absolute path,
falling back to the basename whenever anything fails or escapes. -/
def to_filename (env : Env) (fs : FS) (abs_path : String) : String :=
  if abs_path = "" then abs_path
  else
    match get_workspace env fs with
    | .error _ => pyBasename abs_path
    | .ok ws_real =>
      match pyRelpath env.cwd abs_path ws_real with
      | .error _ => pyBasename abs_path
      | .ok rel =>
        if pyStartsWith rel ".." then pyBasename abs_path else rel

/-- `is_workspace_configured`: `get_workspace` succeeds.  The source
catches `PermissionError` specifically; since `get_workspace` raises
only `PermissionError` (see `gw_error_perm`), catching every error is
the same function. -/
def is_workspace_configured (env : Env) (fs : FS) : Bool :=
  match get_workspace env fs with
  | .ok _ => true
  | .error _ => false

/-! ### Basic list lemmas -/

theorem getLast?_mem' {α : Type} {l : List α} {a : α} (h : l.getLast? = some a) :
    a ∈ l := by
  induction l with
  | nil => simp at h
  | cons b bs ih =>
    cases bs with
    | nil => simp [List.getLast?] at h; simp [h]
    | cons c cs =>
      rw [List.getLast?_cons_cons] at h
      exact List.mem_cons_of_mem _ (ih h)

theorem exists_getLast? {α : Type} {l : List α} (h : l ≠ []) :
    ∃ a, l.getLast? = some a := by
  induction l with
  | nil => exact absurd rfl h
  | cons b bs ih =>
    cases bs with
    | nil => exact ⟨b, rfl⟩
    | cons c cs =>
      obtain ⟨a, ha⟩ := ih (by simp)
      exact ⟨a, by rw [List.getLast?_cons_cons, ha]⟩

theorem mem_dropLast' {α : Type} {l : List α} {a : α} (h : a ∈ l.dropLast) :
    a ∈ l := by
  induction l with
  | nil => simp at h
  | cons b bs ih =>
    cases bs with
    | nil => simp at h
    | cons c cs =>
      rw [show (b :: c :: cs).dropLast = b :: (c :: cs).dropLast from rfl] at h
      rcases List.mem_cons.mp h with rfl | h'
      · exact List.mem_cons_self _ _
      · exact List.mem_cons_of_mem _ (ih h')

theorem getLast?_append' {α : Type} (a : List α) {b : List α} (hb : b ≠ []) :
    (a ++ b).getLast? = b.getLast? := by
  induction a with
  | nil => rfl
  | cons x a' ih =>
    have hne : a' ++ b ≠ [] := fun hh => hb (List.append_eq_nil.mp hh).2
    cases hab : a' ++ b with
    | nil => exact absurd hab hne
    | cons y ys =>
      rw [List.cons_append, hab, List.getLast?_cons_cons, ← hab, ih]

theorem getLast?_cons_of_ne_nil {α : Type} (x : α) {l : List α} (h : l ≠ []) :
    (x :: l).getLast? = l.getLast? := by
  cases l with
  | nil => exact absurd rfl h
  | cons y ys => rw [List.getLast?_cons_cons]

/-! ### `preB` / `infB` characterisations -/

theorem preB_iff (p l : List Char) : preB p l = true ↔ ∃ t, l = p ++ t := by
  induction p generalizing l with
  | nil => simp [preB]
  | cons a as ih =>
    cases l with
    | nil =>
      simp only [preB, List.cons_append]
      constructor
      · intro h; exact absurd h (by simp)
      · rintro ⟨t, ht⟩; exact absurd ht (by simp)
    | cons b bs =>
      simp only [preB, Bool.and_eq_true, beq_iff_eq, ih, List.cons_append]
      constructor
      · rintro ⟨rfl, t, rfl⟩; exact ⟨t, rfl⟩
      · rintro ⟨t, ht⟩
        injection ht with h1 h2
        exact ⟨h1.symm, t, h2⟩

theorem infB_iff (pat l : List Char) : infB pat l = true ↔ ∃ u v, l = u ++ pat ++ v := by
  induction l with
  | nil =>
    simp only [infB, preB_iff]
    constructor
    · rintro ⟨t, ht⟩
      exact ⟨[], t, by simpa using ht⟩
    · rintro ⟨u, v, h⟩
      obtain ⟨h1, h2⟩ := List.append_eq_nil.mp h.symm
      obtain ⟨h3, h4⟩ := List.append_eq_nil.mp h1
      exact ⟨[], by simp [h4]⟩
  | cons c ls ih =>
    simp only [infB, Bool.or_eq_true, preB_iff, ih]
    constructor
    · rintro (⟨t, ht⟩ | ⟨u, v, hv⟩)
      · exact ⟨[], t, by simpa using ht⟩
      · exact ⟨c :: u, v, by simp [hv]⟩
    · rintro ⟨u, v, h⟩
      cases u with
      | nil => exact Or.inl ⟨v, by simpa using h⟩
      | cons x us =>
        injection h with h1 h2
        exact Or.inr ⟨us, v, h2⟩

/-! ### `splitChar` lemmas -/

theorem splitChar1_no_sep (sep : Char) (l : List Char) :
    sep ∉ (splitChar1 sep l).1 ∧ ∀ c ∈ (splitChar1 sep l).2, sep ∉ c := by
  induction l with
  | nil => simp [splitChar1]
  | cons c cs ih =>
    by_cases h : c = sep
    · subst h
      simp only [splitChar1, if_pos rfl]
      refine ⟨by simp, ?_⟩
      intro x hx
      rcases List.mem_cons.mp hx with rfl | hx'
      · exact ih.1
      · exact ih.2 x hx'
    · simp only [splitChar1, if_neg h]
      refine ⟨?_, ih.2⟩
      intro hmem
      rcases List.mem_cons.mp hmem with heq | hmem'
      · exact h heq.symm
      · exact ih.1 hmem'

theorem splitChar1_fst_pre (sep : Char) (l : List Char) :
    ∃ t, l = (splitChar1 sep l).1 ++ t := by
  induction l with
  | nil => exact ⟨[], rfl⟩
  | cons c cs ih =>
    by_cases h : c = sep
    · exact ⟨c :: cs, by simp [splitChar1, if_pos h]⟩
    · obtain ⟨t, ht⟩ := ih
      exact ⟨t, by simp only [splitChar1, if_neg h, List.cons_append]; rw [← ht]⟩

theorem splitChar1_snd_mem (sep : Char) (l p : List Char)
    (h : p ∈ (splitChar1 sep l).2) : ∃ u v, l = u ++ sep :: p ++ v := by
  induction l with
  | nil => simp [splitChar1] at h
  | cons c cs ih =>
    by_cases hc : c = sep
    · simp only [splitChar1, if_pos hc] at h
      rcases List.mem_cons.mp h with rfl | h'
      · obtain ⟨t, ht⟩ := splitChar1_fst_pre sep cs
        exact ⟨[], t, by simp [hc, ← ht]⟩
      · obtain ⟨u, v, huv⟩ := ih h'
        exact ⟨sep :: u, v, by simp [hc, huv]⟩
    · simp only [splitChar1, if_neg hc] at h
      obtain ⟨u, v, huv⟩ := ih h
      exact ⟨c :: u, v, by simp [huv]⟩

/-- Every field of `splitChar` is a prefix of the input or is preceded by
the separator inside it. -/
theorem splitChar_mem (sep : Char) (l p : List Char) (h : p ∈ splitChar sep l) :
    (∃ t, l = p ++ t) ∨ (∃ u v, l = u ++ sep :: p ++ v) := by
  rcases List.mem_cons.mp h with rfl | h'
  · exact Or.inl (splitChar1_fst_pre sep l)
  · exact Or.inr (splitChar1_snd_mem sep l p h')

theorem splitChar_no_sep (sep : Char) (l c : List Char) (h : c ∈ splitChar sep l) :
    sep ∉ c := by
  rcases List.mem_cons.mp h with rfl | h'
  · exact (splitChar1_no_sep sep l).1
  · exact (splitChar1_no_sep sep l).2 c h'

theorem splitChar1_sepFree (sep : Char) (l : List Char) (h : sep ∉ l) :
    splitChar1 sep l = (l, []) := by
  induction l with
  | nil => rfl
  | cons c cs ih =>
    have hc : ¬ c = sep := fun hh => h (by simp [hh])
    have hcs : sep ∉ cs := fun hh => h (List.mem_cons_of_mem _ hh)
    simp [splitChar1, hc, ih hcs]

theorem splitChar1_append (sep : Char) (a b : List Char) (h : sep ∉ a) :
    splitChar1 sep (a ++ sep :: b) = (a, splitChar sep b) := by
  induction a with
  | nil => simp [splitChar1, splitChar]
  | cons x a' ih =>
    have hx : ¬ x = sep := fun hh => h (by simp [hh])
    have ha' : sep ∉ a' := fun hh => h (List.mem_cons_of_mem _ hh)
    simp [splitChar1, hx, ih ha']

theorem splitChar_cons_sep (sep : Char) (X : List Char) :
    splitChar sep (sep :: X) = [] :: splitChar sep X := by
  simp [splitChar, splitChar1]

theorem intercalate_cons₂ (s a b : List Char) (t : List (List Char)) :
    List.intercalate s (a :: b :: t) = a ++ s ++ List.intercalate s (b :: t) := by
  simp [List.intercalate, List.intersperse]

theorem intercalate_single (s c : List Char) : List.intercalate s [c] = c := by
  simp [List.intercalate, List.intersperse]

theorem split_intercalate (sep : Char) (cs : List (List Char)) (h0 : cs ≠ [])
    (h : ∀ c ∈ cs, sep ∉ c) :
    splitChar sep (List.intercalate [sep] cs) = cs := by
  induction cs with
  | nil => exact absurd rfl h0
  | cons c cs' ih =>
    cases cs' with
    | nil =>
      rw [intercalate_single]
      have := splitChar1_sepFree sep c (h c (by simp))
      simp [splitChar, this]
    | cons d ds =>
      rw [intercalate_cons₂]
      have hc : sep ∉ c := h c (by simp)
      have hrest := ih (by simp) (fun x hx => h x (List.mem_cons_of_mem _ hx))
      rw [List.append_assoc, List.singleton_append]
      unfold splitChar
      rw [splitChar1_append sep c _ hc]
      simpa using hrest

/-! ### `commonPrefixL` lemmas -/

theorem cp_refl_append {α : Type} [DecidableEq α] (a t : List α) :
    commonPrefixL a (a ++ t) = a := by
  induction a with
  | nil => cases t <;> rfl
  | cons x as ih => simp [commonPrefixL, ih]

theorem cp_pre_left {α : Type} [DecidableEq α] (a b : List α) :
    ∃ t, a = commonPrefixL a b ++ t := by
  induction a generalizing b with
  | nil => exact ⟨[], by cases b <;> rfl⟩
  | cons x as ih =>
    cases b with
    | nil => exact ⟨x :: as, rfl⟩
    | cons y bs =>
      by_cases h : x = y
      · obtain ⟨t, ht⟩ := ih bs
        exact ⟨t, by simp [commonPrefixL, h, ← ht]⟩
      · exact ⟨x :: as, by simp [commonPrefixL, h]⟩

theorem cp_subset_left {α : Type} [DecidableEq α] {a b : List α} {x : α}
    (h : x ∈ commonPrefixL a b) : x ∈ a := by
  obtain ⟨t, ht⟩ := cp_pre_left a b
  rw [ht]
  exact List.mem_append_left _ h

/-! ### More `intercalate` lemmas -/

theorem intercalate_head? (sep : Char) (c : List Char) (cs : List (List Char)) :
    c ≠ [] → (List.intercalate [sep] (c :: cs)).head? = c.head? := by
  intro hc
  cases cs with
  | nil => rw [intercalate_single]
  | cons d ds =>
    rw [intercalate_cons₂]
    cases c with
    | nil => exact absurd rfl hc
    | cons x xs => rfl

theorem intercalate_ne_nil (sep : Char) (c : List Char) (cs : List (List Char))
    (hc : c ≠ []) : List.intercalate [sep] (c :: cs) ≠ [] := by
  cases cs with
  | nil => rw [intercalate_single]; exact hc
  | cons d ds =>
    rw [intercalate_cons₂]
    cases c with
    | nil => exact absurd rfl hc
    | cons x xs => simp

theorem intercalate_getLast_ne_sep (sep : Char) (cs : List (List Char))
    (h0 : cs ≠ []) (h : ∀ c ∈ cs, c ≠ [] ∧ sep ∉ c) :
    ∃ ch, (List.intercalate [sep] cs).getLast? = some ch ∧ ch ≠ sep := by
  induction cs with
  | nil => exact absurd rfl h0
  | cons c cs' ih =>
    cases cs' with
    | nil =>
      rw [intercalate_single]
      obtain ⟨hc, hsep⟩ := h c (by simp)
      obtain ⟨ch, hch⟩ := exists_getLast? hc
      exact ⟨ch, hch, fun hh => hsep (hh ▸ getLast?_mem' hch)⟩
    | cons d ds =>
      obtain ⟨ch, hch, hne⟩ := ih (by simp) (fun x hx => h x (List.mem_cons_of_mem _ hx))
      have hX : List.intercalate [sep] (d :: ds) ≠ [] :=
        intercalate_ne_nil sep d ds (h d (by simp)).1
      refine ⟨ch, ?_, hne⟩
      rw [intercalate_cons₂, List.append_assoc, List.singleton_append,
        getLast?_append' c (by simp), getLast?_cons_of_ne_nil sep hX, hch]

theorem intercalate_append₂ (sep : Char) (a b : List (List Char))
    (ha : a ≠ []) (hb : b ≠ []) :
    List.intercalate [sep] (a ++ b) =
      List.intercalate [sep] a ++ sep :: List.intercalate [sep] b := by
  induction a with
  | nil => exact absurd rfl ha
  | cons c a' ih =>
    cases a' with
    | nil =>
      cases b with
      | nil => exact absurd rfl hb
      | cons d ds => rw [intercalate_single]; simp [intercalate_cons₂]
    | cons e es =>
      have ih' := ih (by simp)
      rw [List.cons_append] at ih'
      rw [List.cons_append, List.cons_append, intercalate_cons₂, ih', intercalate_cons₂]
      simp

/-! ### Shape of `normpath` output -/

/-- A well-formed path component: non-empty, not `.`, not `..`,
slash-free.  Absolute outputs of `normpath` consist of such components. -/
def goodComp (c : List Char) : Prop :=
  c ≠ [] ∧ c ≠ ['.'] ∧ c ≠ ['.', '.'] ∧ '/' ∉ c

/-- All components well-formed. -/
def GoodComps (cs : List (List Char)) : Prop := ∀ c ∈ cs, goodComp c

theorem normFold_inv (k : Nat) (cs : List (List Char)) (acc : List (List Char))
    (hc : ∀ c ∈ cs, '/' ∉ c)
    (hacc : ∀ c ∈ acc, c ≠ [] ∧ c ≠ ['.'] ∧ '/' ∉ c ∧ (k ≠ 0 → c ≠ ['.', '.'])) :
    ∀ c ∈ List.foldl (normStep k) acc cs,
      c ≠ [] ∧ c ≠ ['.'] ∧ '/' ∉ c ∧ (k ≠ 0 → c ≠ ['.', '.']) := by
  induction cs generalizing acc with
  | nil => exact hacc
  | cons c cs' ih =>
    rw [List.foldl_cons]
    apply ih
    · exact fun x hx => hc x (List.mem_cons_of_mem _ hx)
    intro x hx
    unfold normStep at hx
    split at hx
    · exact hacc x hx
    · split at hx
      · rcases List.mem_append.mp hx with hx' | hx'
        · exact hacc x hx'
        · rcases List.mem_singleton.mp hx' with rfl
          rename_i hne hcond
          push_neg at hne
          refine ⟨hne.1, hne.2, hc x (by simp), ?_⟩
          intro hk hdd
          subst hdd
          rcases hcond with hcond | hcond | hcond
          · exact hcond rfl
          · exact hk hcond.1
          · exact (hacc _ (getLast?_mem' hcond.2)).2.2.2 hk rfl
      · exact hacc x (mem_dropLast' hx)

theorem normFold_append (k : Nat) (cs : List (List Char))
    (h : ∀ c ∈ cs, goodComp c) :
    ∀ acc, List.foldl (normStep k) acc cs = acc ++ cs := by
  induction cs with
  | nil => intro acc; simp
  | cons c cs' ih =>
    intro acc
    obtain ⟨h1, h2, h3, _⟩ := h c (by simp)
    have hstep : normStep k acc c = acc ++ [c] := by
      unfold normStep
      rw [if_neg (by simp [h1, h2]), if_pos (Or.inl h3)]
    rw [List.foldl_cons, hstep, ih (fun x hx => h x (List.mem_cons_of_mem _ hx))]
    simp

theorem head?_mem' {α : Type} {l : List α} {a : α} (h : l.head? = some a) : a ∈ l := by
  cases l with
  | nil => simp at h
  | cons b bs =>
    injection h with h1
    rw [← h1]
    simp

theorem pyIsabsL_iff (l : List Char) : pyIsabsL l = true ↔ l.head? = some '/' := by
  simp [pyIsabsL]

theorem normpathL_ne_nil (l : List Char) : normpathL l ≠ [] := by
  unfold normpathL
  split
  · simp
  · split
    · simp
    · assumption

theorem initSlashes_cases (l : List Char) (h : pyIsabsL l = true) :
    initSlashes l = 1 ∨ initSlashes l = 2 := by
  unfold initSlashes
  rw [if_pos h]
  split
  · exact Or.inr rfl
  · exact Or.inl rfl

theorem normpathL_isabs (l : List Char) (h : pyIsabsL l = true) :
    pyIsabsL (normpathL l) = true := by
  have hl : l ≠ [] := by cases l with | nil => simp [pyIsabsL] at h | cons c cs => simp
  unfold normpathL
  rw [if_neg hl]
  rcases initSlashes_cases l h with hk | hk <;>
    · rw [hk]
      simp only [List.replicate, List.cons_append]
      split
      · simp_all
      · rfl

theorem normpath_out (l : List Char) (hl : l ≠ []) :
    normpathL l =
      if List.replicate (initSlashes l) '/' ++
          List.intercalate ['/'] ((splitChar '/' l).foldl (normStep (initSlashes l)) []) = []
        then ['.']
      else List.replicate (initSlashes l) '/' ++
        List.intercalate ['/'] ((splitChar '/' l).foldl (normStep (initSlashes l)) []) := by
  unfold normpathL
  rw [if_neg hl]

theorem normpath_shape (l : List Char)
    (h1 : pyIsabsL (normpathL l) = true)
    (h2 : preB ['/', '/'] (normpathL l) = false) :
    ∃ cs, GoodComps cs ∧ normpathL l = '/' :: List.intercalate ['/'] cs := by
  by_cases hl : l = []
  · rw [hl] at h1; exact absurd h1 (by decide)
  · have hsep : ∀ c ∈ splitChar '/' l, '/' ∉ c := fun c hc => splitChar_no_sep '/' l c hc
    have hinv := normFold_inv (initSlashes l) (splitChar '/' l) [] hsep (by simp)
    set nc := (splitChar '/' l).foldl (normStep (initSlashes l)) [] with hnc
    have hout := normpath_out l hl
    rw [← hnc] at hout
    by_cases habs : pyIsabsL l = true
    · rcases initSlashes_cases l habs with hk | hk
      · refine ⟨nc, ?_, ?_⟩
        · intro c hc
          obtain ⟨g1, g2, g3, g4⟩ := hinv c hc
          exact ⟨g1, g2, g4 (by rw [hk]; exact one_ne_zero), g3⟩
        · rw [hout, hk]
          simp [List.replicate]
      · exfalso
        rw [hout, hk] at h2
        simp only [List.replicate, List.cons_append, List.nil_append] at h2
        rw [if_neg (by simp)] at h2
        simp [preB] at h2
    · -- not absolute: initSlashes = 0 and the output cannot start with '/'
      exfalso
      have hk : initSlashes l = 0 := by unfold initSlashes; rw [if_neg habs]
      rw [hout, hk] at h1
      simp only [List.replicate, List.nil_append] at h1
      cases hcnc : nc with
      | nil =>
        rw [hcnc] at h1
        exact absurd h1 (by decide)
      | cons c cs' =>
        obtain ⟨g1, g2, g3, g4⟩ := hinv c (by rw [hcnc]; simp)
        rw [hcnc, if_neg (intercalate_ne_nil '/' c cs' g1)] at h1
        have hhd := intercalate_head? '/' c cs' g1
        rw [pyIsabsL_iff] at h1
        rw [h1] at hhd
        exact g3 (head?_mem' hhd.symm)

theorem normpath_reconstruct (cs : List (List Char)) (h : GoodComps cs) :
    normpathL ('/' :: List.intercalate ['/'] cs) = '/' :: List.intercalate ['/'] cs := by
  cases cs with
  | nil => decide
  | cons c cs' =>
    obtain ⟨g1, g2, g3, g4⟩ := h c (by simp)
    have hhd := intercalate_head? '/' c cs' g1
    have hl : ('/' :: List.intercalate ['/'] (c :: cs')) ≠ [] := by simp
    have habs : pyIsabsL ('/' :: List.intercalate ['/'] (c :: cs')) = true := rfl
    have htake : ('/' :: List.intercalate ['/'] (c :: cs')).take 2 ≠ ['/', '/'] := by
      intro hcontra
      cases hint : List.intercalate ['/'] (c :: cs') with
      | nil => exact (intercalate_ne_nil '/' c cs' g1) hint
      | cons y ys =>
        rw [hint] at hcontra hhd
        simp only [List.take] at hcontra
        injection hcontra with _ hrest
        injection hrest with hy
        have hyc : y ∈ c := head?_mem' hhd.symm
        rw [hy] at hyc
        exact g4 hyc
    have hk : initSlashes ('/' :: List.intercalate ['/'] (c :: cs')) = 1 := by
      unfold initSlashes
      rw [if_pos habs, if_neg (by intro hcontra; exact htake hcontra.1)]
    have hsplit : splitChar '/' ('/' :: List.intercalate ['/'] (c :: cs')) =
        [] :: c :: cs' := by
      have hfree : ∀ x ∈ c :: cs', '/' ∉ x := by
        intro x hx
        rcases List.mem_cons.mp hx with rfl | hx'
        · exact g4
        · exact (h x (List.mem_cons_of_mem _ hx')).2.2.2
      rw [splitChar_cons_sep, split_intercalate '/' (c :: cs') (by simp) hfree]
    unfold normpathL
    rw [if_neg hl, hsplit, hk]
    have hfold : List.foldl (normStep 1) [] ([] :: c :: cs') = c :: cs' := by
      rw [List.foldl_cons]
      have hskip : normStep 1 [] [] = [] := by unfold normStep; simp
      rw [hskip, normFold_append 1 (c :: cs') h []]
      simp
    rw [hfold]
    simp [List.replicate]

/-! ### Absoluteness and normal-form facts about `abspath`/`realpath` -/

theorem pyIsabsL_cons (a : List Char) (h : pyIsabsL a = true) : ∃ t, a = '/' :: t := by
  cases a with
  | nil => simp [pyIsabsL] at h
  | cons x xs =>
    rw [pyIsabsL_iff] at h
    injection h with h1
    exact ⟨xs, by rw [h1]⟩

theorem joinL_isabs (a b : List Char) (h : pyIsabsL a = true) :
    pyIsabsL (joinL a b) = true := by
  unfold joinL
  split
  · assumption
  · obtain ⟨t, rfl⟩ := pyIsabsL_cons a h
    split
    · rfl
    · rfl

theorem abspathS_isabs (cwd s : String) (h : pyIsabsL cwd.data = true) :
    pyIsabsL (abspathS cwd s).data = true := by
  unfold abspathS
  show pyIsabsL (normpathL _) = true
  split
  · exact normpathL_isabs _ (by assumption)
  · exact normpathL_isabs _ (joinL_isabs _ _ h)

theorem realpathS_norm (fs : FS) (cwd s : String) :
    ∃ x, (realpathS fs cwd s).data = normpathL x := by
  unfold realpathS
  split
  · exact ⟨_, rfl⟩
  · exact ⟨_, rfl⟩

theorem realpathS_isabs (fs : FS) (cwd s : String) (h : pyIsabsL cwd.data = true) :
    pyIsabsL (realpathS fs cwd s).data = true := by
  unfold realpathS
  split
  · exact abspathS_isabs cwd _ h
  · exact abspathS_isabs cwd _ h

/-- Idempotence of `normpath` on absolute single-rooted outputs. -/
theorem normpathL_fix (p : List Char)
    (hnorm : ∃ x, p = normpathL x)
    (habs : pyIsabsL p = true) (hdd : preB ['/', '/'] p = false) :
    normpathL p = p := by
  obtain ⟨x, rfl⟩ := hnorm
  obtain ⟨cs, hg, he⟩ := normpath_shape x habs hdd
  rw [he, normpath_reconstruct cs hg]

/-! ### `get_workspace` inversions -/

theorem gw_error_perm (env : Env) (fs : FS) (e : PyErr)
    (h : get_workspace env fs = .error e) : ∃ m, e = .permissionError m := by
  unfold get_workspace at h
  split at h
  · exact ⟨cfgUnsetMsg, by injection h with h1; exact h1.symm⟩
  · simp only [] at h
    split at h
    · exact ⟨cfgUnsetMsg, by injection h with h1; exact h1.symm⟩
    · split at h
      · exact absurd h (by simp)
      · exact ⟨_, by injection h with h1; exact h1.symm⟩

theorem gw_ok_realpath (env : Env) (fs : FS) (ws : String)
    (h : get_workspace env fs = .ok ws) :
    ∃ w, env.workspace_path = some w ∧
      ws = realpathS fs env.cwd (expanduser env w) := by
  unfold get_workspace at h
  split at h
  · exact absurd h (by simp)
  · rename_i u hu
    simp only [] at h
    split at h
    · exact absurd h (by simp)
    · split at h
      · exact ⟨u, hu, by injection h with h1; exact h1.symm⟩
      · exact absurd h (by simp)

/-! ### `relpath`, `basename` and `to_filename` never produce absolute paths -/

theorem getLastD_mem {α : Type} (a : α) (l : List α) (d : α) :
    (a :: l).getLastD d ∈ a :: l := by
  induction l generalizing a with
  | nil => simp
  | cons b bs ih => exact List.mem_cons_of_mem a (ih b)

theorem not_abs_of_head_free (X : List Char) (c : List Char)
    (hc : c ≠ []) (hfree : '/' ∉ c) (hh : X.head? = c.head?) :
    pyIsabsL X = false := by
  cases c with
  | nil => exact absurd rfl hc
  | cons x xs =>
    have hx : x ≠ '/' := fun hcontra => hfree (by rw [← hcontra]; simp)
    simp only [pyIsabsL]
    rw [hh]
    simp [hx]

theorem relpath_ok_not_abs (cwd p s r : String)
    (h : pyRelpath cwd p s = .ok r) : pyIsabsL r.data = false := by
  unfold pyRelpath at h
  split at h
  · exact absurd h (by simp)
  · simp only [] at h
    set SL := (splitChar '/' (abspathS cwd s).data).filter (fun c => c ≠ []) with hSL
    set PL := (splitChar '/' (abspathS cwd p).data).filter (fun c => c ≠ []) with hPL
    set i := (commonPrefixL SL PL).length with hi
    split at h
    · injection h with h1
      rw [← h1]
      decide
    · rename_i hne
      injection h with h1
      rw [← h1]
      cases hrep : List.replicate (SL.length - i) (['.', '.'] : List Char) with
      | cons e es =>
        have he : e = ['.', '.'] := List.eq_of_mem_replicate (by rw [hrep]; simp)
        show pyIsabsL (List.intercalate ['/'] (e :: es ++ PL.drop i)) = false
        rw [List.cons_append]
        subst he
        exact not_abs_of_head_free _ ['.', '.'] (by simp) (by decide)
          (intercalate_head? '/' _ _ (by simp))
      | nil =>
        rw [hrep] at hne
        simp only [List.nil_append] at hne
        show pyIsabsL (List.intercalate ['/'] ([] ++ PL.drop i)) = false
        simp only [List.nil_append]
        cases hdrop : PL.drop i with
        | nil => exact absurd hdrop hne
        | cons d ds =>
          have hdmem : d ∈ PL := List.drop_subset _ _ (by rw [hdrop]; simp)
          rw [hPL] at hdmem
          have hdfilter := List.mem_filter.mp hdmem
          have hd1 : d ≠ [] := by simpa using hdfilter.2
          have hd2 : '/' ∉ d := splitChar_no_sep '/' _ d hdfilter.1
          exact not_abs_of_head_free _ d hd1 hd2 (intercalate_head? '/' _ _ hd1)

theorem basename_not_abs (s : String) : pyIsabsL (pyBasename s).data = false := by
  unfold pyBasename
  show pyIsabsL ((splitChar '/' s.data).getLastD []) = false
  have hmem : (splitChar '/' s.data).getLastD [] ∈ splitChar '/' s.data := by
    unfold splitChar
    exact getLastD_mem _ _ _
  have hfree := splitChar_no_sep '/' s.data _ hmem
  cases hb : (splitChar '/' s.data).getLastD [] with
  | nil => decide
  | cons x xs =>
    rw [hb] at hfree
    exact not_abs_of_head_free _ (x :: xs) (by simp) hfree rfl

/-! ### Blankness and the traversal check -/

theorem blankCheck_space (f : String) (h : blankCheck f = true) :
    ∀ c ∈ f.data, pySpace c = true := by
  unfold blankCheck at h
  rcases Bool.or_eq_true_iff.mp h with h1 | h1
  · have hf : f = "" := by simpa using h1
    intro c hc
    rw [hf] at hc
    simp at hc
  · have hstrip : stripL f.data = [] := by
      have hmk : (⟨stripL f.data⟩ : String) = "" := by simpa using h1
      have := congrArg String.data hmk
      simpa using this
    unfold stripL at hstrip
    have h2 : (f.data.dropWhile pySpace).reverse.dropWhile pySpace = [] := by
      have := congrArg List.reverse hstrip
      simpa using this
    have h3 : ∀ x ∈ (f.data.dropWhile pySpace).reverse, pySpace x = true := by
      intro x hx
      exact List.dropWhile_eq_nil_iff.mp h2 x hx
    have h4 : ∀ x ∈ f.data.dropWhile pySpace, pySpace x = true := by
      intro x hx
      exact h3 x (List.mem_reverse.mpr hx)
    intro c hc
    rw [← List.takeWhile_append_dropWhile (p := pySpace) (l := f.data)] at hc
    rcases List.mem_append.mp hc with hc' | hc'
    · exact List.mem_takeWhile_imp hc'
    · exact h4 c hc'

theorem travCheck_of_mem (n : String)
    (h : ['.', '.'] ∈ splitChar '/' n.data) : travCheck n = true := by
  unfold travCheck pyStartsWith strContains
  rcases splitChar_mem '/' n.data _ h with ⟨t, ht⟩ | ⟨u, v, huv⟩
  · apply Bool.or_eq_true_iff.mpr
    exact Or.inl ((preB_iff _ _).mpr ⟨t, ht⟩)
  · apply Bool.or_eq_true_iff.mpr
    refine Or.inr ((infB_iff _ _).mpr ⟨u, v, ?_⟩)
    rw [huv]

/-- Syntactically normalizing a non-empty whitespace-only string returns
it unchanged (it is a single ordinary component). -/
theorem normpathL_sepfree (l : List Char) (h0 : l ≠ []) (h1 : '/' ∉ l)
    (h2 : l ≠ ['.']) : normpathL l = l := by
  have habs : pyIsabsL l = false := by
    cases l with
    | nil => exact absurd rfl h0
    | cons c cs =>
      have hc : c ≠ '/' := fun hh => h1 (by rw [← hh]; simp)
      simp [pyIsabsL, hc]
  have hk : initSlashes l = 0 := by simp [initSlashes, habs]
  have hsplit : splitChar '/' l = [l] := by
    have := splitChar1_sepFree '/' l h1
    simp [splitChar, this]
  unfold normpathL
  rw [if_neg h0, hk, hsplit]
  simp only [List.replicate, List.nil_append, List.foldl_cons, List.foldl_nil]
  have hstep : normStep 0 [] l = [l] := by
    unfold normStep
    rw [if_neg (by simp [h0, h2]), if_pos (Or.inr (Or.inl ⟨rfl, rfl⟩))]
    simp
  rw [hstep, intercalate_single]
  rw [if_neg h0]

/-- A filename whose normalized form has a `..` component cannot be
blank, so the guard's first check does not fire on it. -/
theorem blankCheck_of_dotdot (f : String)
    (hmem : ['.', '.'] ∈ splitChar '/' (normpath f).data) :
    blankCheck f = false := by
  by_contra hb
  have hb' : blankCheck f = true := by
    revert hb; cases blankCheck f <;> simp
  have hall := blankCheck_space f hb'
  have hnd : (normpath f).data = normpathL f.data := rfl
  by_cases hf : f.data = []
  · rw [hnd, hf] at hmem
    exact absurd hmem (by decide)
  · have hslash : '/' ∉ f.data := by
      intro hm
      exact absurd (hall '/' hm) (by decide)
    have hdot : f.data ≠ ['.'] := by
      intro he
      exact absurd (hall '.' (by rw [he]; simp)) (by decide)
    rw [hnd, normpathL_sepfree f.data hf hslash hdot] at hmem
    rw [show splitChar '/' f.data = [f.data] from by
      have := splitChar1_sepFree '/' f.data hslash
      simp [splitChar, this]] at hmem
    have h5 : ['.', '.'] = f.data := by simpa using hmem
    exact absurd (hall '.' (by rw [← h5]; simp)) (by decide)

/-! ### Concrete environments for witnesses and counterexamples -/

/-- A typical configured workspace at `/srv/ws`. -/
def envA : Env := ⟨some "/srv/ws", none, "/"⟩

/-- Matching filesystem: files, a subdirectory, and a symlink escaping
the workspace. -/
def fsA : FS :=
  [("/", .dir), ("/srv", .dir), ("/srv/ws", .dir),
   ("/srv/ws/a.txt", .file), ("/srv/ws/docs", .dir),
   ("/srv/ws/docs/q.pdf", .file),
   ("/srv/ws/evil", .symlink "/etc/passwd"),
   ("/etc", .dir), ("/etc/passwd", .file)]

/-- Unconfigured environment. -/
def envU : Env := ⟨none, none, "/"⟩

/-! ### Branch lemmas for `resolve_workspace_file`

Each lemma pins down the result of the guard when a given rule is the
first to fire; the claim theorems below are instances of these. -/

theorem resolve_blank_eq (env : Env) (fs : FS) (f : String) (me : Bool)
    (hb : blankCheck f = true) :
    resolve_workspace_file env fs f me = .error (.valueError emptyMsg) := by
  unfold resolve_workspace_file
  rw [hb, if_pos rfl]

theorem resolve_gwerr_eq (env : Env) (fs : FS) (f : String) (me : Bool) (e : PyErr)
    (hb : blankCheck f = false) (hgw : get_workspace env fs = .error e) :
    resolve_workspace_file env fs f me = .error e := by
  unfold resolve_workspace_file
  rw [hb, if_neg (by simp), hgw]

theorem resolve_abs_eq (env : Env) (fs : FS) (f : String) (me : Bool)
    (ws : String) (hgw : get_workspace env fs = .ok ws)
    (habs : pyIsabs f = true) :
    resolve_workspace_file env fs f me = .error (.permissionError absMsg) := by
  have hbl : blankCheck f = false := by
    by_contra hb
    have hb' : blankCheck f = true := by
      revert hb; cases blankCheck f <;> simp
    obtain ⟨t, hft⟩ := pyIsabsL_cons f.data habs
    have := blankCheck_space f hb' '/' (by rw [hft]; simp)
    exact absurd this (by decide)
  unfold resolve_workspace_file
  rw [hbl, hgw]
  simp [habs]

theorem resolve_trav_eq (env : Env) (fs : FS) (f : String) (me : Bool)
    (ws : String) (hb : blankCheck f = false)
    (hgw : get_workspace env fs = .ok ws)
    (habs : pyIsabs f = false) (htr : travCheck (normpath f) = true) :
    resolve_workspace_file env fs f me = .error (.permissionError travMsg) := by
  unfold resolve_workspace_file
  rw [hb, hgw]
  simp only []
  rw [habs]
  simp [htr]

theorem resolve_drive_eq (env : Env) (fs : FS) (f : String) (me : Bool)
    (ws : String) (e : PyErr) (hb : blankCheck f = false)
    (hgw : get_workspace env fs = .ok ws)
    (habs : pyIsabs f = false) (htr : travCheck (normpath f) = false)
    (hcp : commonpath2 (realpathS fs env.cwd (pyJoin2 ws (normpath f))) ws = .error e) :
    resolve_workspace_file env fs f me = .error (.permissionError driveMsg) := by
  unfold resolve_workspace_file
  rw [hb, hgw]
  simp only []
  rw [habs]
  simp only [Bool.false_eq_true, if_false, htr]
  rw [hcp]

theorem resolve_outside_eq (env : Env) (fs : FS) (f : String) (me : Bool)
    (ws common : String) (hb : blankCheck f = false)
    (hgw : get_workspace env fs = .ok ws)
    (habs : pyIsabs f = false) (htr : travCheck (normpath f) = false)
    (hcp : commonpath2 (realpathS fs env.cwd (pyJoin2 ws (normpath f))) ws = .ok common)
    (hne : common ≠ ws) :
    resolve_workspace_file env fs f me = .error (.permissionError outsideMsg) := by
  unfold resolve_workspace_file
  rw [hb, hgw]
  simp only []
  rw [habs]
  simp only [Bool.false_eq_true, if_false, htr]
  rw [hcp]
  simp [hne]

theorem resolve_ok_eq (env : Env) (fs : FS) (f : String)
    (ws : String) (hb : blankCheck f = false)
    (hgw : get_workspace env fs = .ok ws)
    (habs : pyIsabs f = false) (htr : travCheck (normpath f) = false)
    (hcp : commonpath2 (realpathS fs env.cwd (pyJoin2 ws (normpath f))) ws = .ok ws) :
    resolve_workspace_file env fs f false =
      .ok (realpathS fs env.cwd (pyJoin2 ws (normpath f))) := by
  unfold resolve_workspace_file
  rw [hb, hgw]
  simp only []
  rw [habs]
  simp only [Bool.false_eq_true, if_false, htr]
  rw [hcp]
  simp

theorem resolve_ok_inv (env : Env) (fs : FS) (f : String) (me : Bool) (p : String)
    (h : resolve_workspace_file env fs f me = .ok p) :
    ∃ ws, get_workspace env fs = .ok ws ∧
      commonpath2 p ws = .ok ws ∧
      p = realpathS fs env.cwd (pyJoin2 ws (normpath f)) := by
  unfold resolve_workspace_file at h
  split at h
  · exact absurd h (by simp)
  · split at h
    · exact absurd h (by simp)
    · rename_i ws hgw
      simp only [] at h
      split at h
      · exact absurd h (by simp)
      · split at h
        · exact absurd h (by simp)
        · split at h
          · exact absurd h (by simp)
          · rename_i common hcp
            split at h
            · exact absurd h (by simp)
            · rename_i hcomeq
              split at h
              · exact absurd h (by simp)
              · injection h with h1
                have hcw : common = ws := by
                  revert hcomeq
                  by_cases hcc : common = ws <;> simp [hcc]
                rw [hcw] at hcp
                refine ⟨ws, hgw, ?_, h1.symm⟩
                rw [← h1]
                exact hcp

theorem resolve_nf_inv (env : Env) (fs : FS) (f : String) (me : Bool) (m : String)
    (h : resolve_workspace_file env fs f me = .error (.fileNotFoundError m)) :
    me = true ∧ blankCheck f = false ∧ pyIsabs f = false ∧
    travCheck (normpath f) = false ∧
    ∃ ws, get_workspace env fs = .ok ws ∧
      commonpath2 (realpathS fs env.cwd (pyJoin2 ws (normpath f))) ws = .ok ws ∧
      pyExists fs env.cwd (realpathS fs env.cwd (pyJoin2 ws (normpath f))) = false ∧
      m = nfMsg f := by
  unfold resolve_workspace_file at h
  split at h
  · exact absurd h (by simp)
  · rename_i hblank
    split at h
    · rename_i e0 hgw0
      injection h with h1
      obtain ⟨m0, hm0⟩ := gw_error_perm env fs e0 hgw0
      rw [hm0] at h1
      exact absurd h1 (by simp)
    · rename_i ws hgw
      simp only [] at h
      split at h
      · exact absurd h (by simp)
      · rename_i habs
        split at h
        · exact absurd h (by simp)
        · rename_i htr
          split at h
          · exact absurd h (by simp)
          · rename_i common hcp
            split at h
            · exact absurd h (by simp)
            · rename_i hcomeq
              split at h
              · rename_i hmust
                injection h with h1
                injection h1 with h2
                have hcw : common = ws := by
                  revert hcomeq
                  by_cases hcc : common = ws <;> simp [hcc]
                have hme : me = true ∧
                    pyExists fs env.cwd
                      (realpathS fs env.cwd (pyJoin2 ws (normpath f))) = false := by
                  revert hmust
                  cases me <;> cases hex : pyExists fs env.cwd
                    (realpathS fs env.cwd (pyJoin2 ws (normpath f))) <;> simp
                refine ⟨hme.1,
                  by revert hblank; cases blankCheck f <;> simp,
                  by revert habs; cases pyIsabs f <;> simp,
                  by revert htr; cases travCheck (normpath f) <;> simp,
                  ws, hgw, ?_, hme.2, h2.symm⟩
                rw [hcw] at hcp
                exact hcp
              · exact absurd h (by simp)

/-! ### C4 -/

/-- C4: for every absolute-path filename, `resolve_workspace_file` fails
with `PermissionError` (the absolute-path rejection), for both values of
`must_exist`, whenever the workspace root is validly configured. -/
theorem C4_absolute_rejected (env : Env) (fs : FS) (f : String) (me : Bool)
    (ws : String) (hgw : get_workspace env fs = .ok ws)
    (habs : pyIsabs f = true) :
    resolve_workspace_file env fs f me = .error (.permissionError absMsg) :=
  resolve_abs_eq env fs f me ws hgw habs

/-- Witness for C4 at a concrete configuration. -/
theorem C4_absolute_rejected_witness :
    resolve_workspace_file envA fsA "/etc/passwd" false =
      .error (.permissionError absMsg) :=
  C4_absolute_rejected envA fsA "/etc/passwd" false "/srv/ws" (by decide) (by decide)

/-! ### C3 -/

/-- C3: for every filename whose syntactically normalized form starts
with a `..` segment or contains `..` as a path component, the guard fails
with `PermissionError` regardless of `must_exist` (and, for relative
filenames, specifically with the path-traversal message, before any
filesystem resolution of the joined path). -/
theorem C3_traversal_rejected (env : Env) (fs : FS) (f : String) (me : Bool)
    (ws : String) (hgw : get_workspace env fs = .ok ws)
    (hmem : (splitChar '/' (normpath f).data).headD [] = ['.', '.'] ∨
      ['.', '.'] ∈ splitChar '/' (normpath f).data) :
    (∃ m, resolve_workspace_file env fs f me = .error (.permissionError m)) ∧
    (pyIsabs f = false →
      resolve_workspace_file env fs f me = .error (.permissionError travMsg)) := by
  have hmem' : ['.', '.'] ∈ splitChar '/' (normpath f).data := by
    rcases hmem with h | h
    · unfold splitChar at h ⊢
      rw [show ((splitChar1 '/' (normpath f).data).1 ::
          (splitChar1 '/' (normpath f).data).2).headD [] =
          (splitChar1 '/' (normpath f).data).1 from rfl] at h
      rw [← h]
      simp
    · exact h
  have htrav := travCheck_of_mem (normpath f) hmem'
  have hbl := blankCheck_of_dotdot f hmem'
  by_cases habs : pyIsabs f = true
  · constructor
    · exact ⟨absMsg, resolve_abs_eq env fs f me ws hgw habs⟩
    · intro hh
      rw [habs] at hh
      exact absurd hh (by simp)
  · have habs' : pyIsabs f = false := by
      revert habs; cases pyIsabs f <;> simp
    have hres := resolve_trav_eq env fs f me ws hbl hgw habs' htrav
    exact ⟨⟨travMsg, hres⟩, fun _ => hres⟩

/-- Witness for C3 at a concrete configuration. -/
theorem C3_traversal_rejected_witness :
    resolve_workspace_file envA fsA "../secret" true =
      .error (.permissionError travMsg) :=
  (C3_traversal_rejected envA fsA "../secret" true "/srv/ws" (by decide)
    (by decide)).2 (by decide)

/-! ### C10 -/

/-- C10: there is a filename — `docs/..notes.txt` — whose normalized form
contains no `..` path component (its last component merely begins with
two dots), yet the guard rejects it with the path-traversal
`PermissionError`: the check matches the `/..` substring, so it is
strictly more restrictive than component-wise rejection. -/
theorem C10_substring_traversal :
    (['.', '.'] ∉ splitChar '/' (normpath "docs/..notes.txt").data) ∧
    normpath "docs/..notes.txt" = "docs/..notes.txt" ∧
    strContains (normpath "docs/..notes.txt") "/.." = true ∧
    resolve_workspace_file envA fsA "docs/..notes.txt" false =
      .error (.permissionError travMsg) := by
  refine ⟨by decide, by decide, by decide, by decide⟩

/-! ### C7 -/

/-- C7: `to_filename` is total (modelled as a total function), never
returns an absolute path, and falls back to the basename of its input
whenever the workspace root cannot be obtained, the relative computation
fails, or the relative path escapes the root (starts with `..`). -/
theorem C7_to_filename_total (env : Env) (fs : FS) (p : String) :
    pyIsabs (to_filename env fs p) = false ∧
    (∀ e, get_workspace env fs = .error e → to_filename env fs p = pyBasename p) ∧
    (∀ ws e, get_workspace env fs = .ok ws → pyRelpath env.cwd p ws = .error e →
      to_filename env fs p = pyBasename p) ∧
    (∀ ws rel, get_workspace env fs = .ok ws → pyRelpath env.cwd p ws = .ok rel →
      pyStartsWith rel ".." = true → to_filename env fs p = pyBasename p) := by
  by_cases hp : p = ""
  · subst hp
    have hpb : pyBasename "" = "" := by decide
    have htf : to_filename env fs "" = "" := by unfold to_filename; simp
    exact ⟨by rw [htf]; decide, fun _ _ => by rw [htf, hpb],
      fun _ _ _ _ => by rw [htf, hpb], fun _ _ _ _ _ => by rw [htf, hpb]⟩
  · cases hgw : get_workspace env fs with
    | error e0 =>
      have htf : to_filename env fs p = pyBasename p := by
        unfold to_filename
        rw [if_neg hp, hgw]
      refine ⟨by rw [htf]; exact basename_not_abs p, fun _ _ => htf, ?_, ?_⟩
      · intro ws e hgw' _
        exact absurd hgw' (by simp)
      · intro ws rel hgw' _ _
        exact absurd hgw' (by simp)
    | ok ws0 =>
      cases hrel : pyRelpath env.cwd p ws0 with
      | error e0 =>
        have htf : to_filename env fs p = pyBasename p := by
          unfold to_filename
          rw [if_neg hp, hgw]
          simp only []
          rw [hrel]
        refine ⟨by rw [htf]; exact basename_not_abs p, ?_, ?_, ?_⟩
        · intro e hgw'
          exact absurd hgw' (by simp)
        · intro ws e _ _
          exact htf
        · intro ws rel hgw' hrel' hx
          revert hx
          injection hgw' with hws
          subst hws
          simp_all
      | ok rel0 =>
        by_cases hst : pyStartsWith rel0 ".." = true
        · have htf : to_filename env fs p = pyBasename p := by
            unfold to_filename
            rw [if_neg hp, hgw]
            simp only []
            rw [hrel]
            simp only []
            rw [if_pos hst]
          refine ⟨by rw [htf]; exact basename_not_abs p, ?_, ?_, ?_⟩
          · intro e hgw'
            exact absurd hgw' (by simp)
          · intro ws e hgw' hrel'
            revert hrel'
            injection hgw' with hws
            subst hws
            simp_all
          · intro ws rel _ _ _
            exact htf
        · have htf : to_filename env fs p = rel0 := by
            unfold to_filename
            rw [if_neg hp, hgw]
            simp only []
            rw [hrel]
            simp only []
            rw [if_neg hst]
          refine ⟨by rw [htf]; exact relpath_ok_not_abs env.cwd p ws0 rel0 hrel, ?_, ?_, ?_⟩
          · intro e hgw'
            exact absurd hgw' (by simp)
          · intro ws e hgw' hrel'
            injection hgw' with hws
            rw [← hws, hrel] at hrel'
            exact absurd hrel' (by simp)
          · intro ws rel hgw' hrel' hst'
            injection hgw' with hws
            rw [← hws, hrel] at hrel'
            injection hrel' with hr
            rw [← hr] at hst'
            exact absurd hst' hst

/-- Witness for C7: with an unconfigured workspace the function falls
back to the basename (and that basename is not absolute). -/
theorem C7_to_filename_total_witness :
    to_filename envU fsA "/srv/ws/a.txt" = pyBasename "/srv/ws/a.txt" ∧
    pyIsabs (to_filename envU fsA "/srv/ws/a.txt") = false :=
  ⟨(C7_to_filename_total envU fsA "/srv/ws/a.txt").2.1
      (.permissionError cfgUnsetMsg) (by decide),
    (C7_to_filename_total envU fsA "/srv/ws/a.txt").1⟩

/-! ### C1 -/

/-- C1: whenever `resolve_workspace_file` returns successfully (for any
filename and either `must_exist` flag), the returned path is the
canonical form (`realpath`) of the normalized filename joined onto the
workspace root, it is absolute, and its longest common path with the
workspace root is exactly the workspace root — it lies inside the root
after symlink resolution.  (`os.getcwd()` is always absolute.) -/
theorem C1_containment (env : Env) (fs : FS) (f : String) (me : Bool) (p : String)
    (hcwd : pyIsabs env.cwd = true)
    (h : resolve_workspace_file env fs f me = .ok p) :
    ∃ ws, get_workspace env fs = .ok ws ∧ commonpath2 p ws = .ok ws ∧
      pyIsabs p = true ∧ p = realpathS fs env.cwd (pyJoin2 ws (normpath f)) := by
  obtain ⟨ws, hgw, hcp, hp⟩ := resolve_ok_inv env fs f me p h
  refine ⟨ws, hgw, hcp, ?_, hp⟩
  rw [hp]
  exact realpathS_isabs fs env.cwd _ hcwd

/-- Witness for C1 at a concrete successful resolution. -/
theorem C1_containment_witness :
    ∃ ws, get_workspace envA fsA = .ok ws ∧
      commonpath2 "/srv/ws/a.txt" ws = .ok ws ∧
      pyIsabs "/srv/ws/a.txt" = true ∧
      "/srv/ws/a.txt" = realpathS fsA envA.cwd (pyJoin2 ws (normpath "a.txt")) :=
  C1_containment envA fsA "a.txt" false "/srv/ws/a.txt" (by decide) (by decide)

/-! ### C5 -/

/-- C5: the guard checks its rules in a fixed fail-fast order: a blank
filename yields the `ValueError` before anything else (even with an
unconfigured root); then configuration errors propagate unchanged; then
absolute paths are rejected; then the traversal check on the normalized
form; then the containment check after symlink resolution (cross-drive
`commonpath` failures and escapes both yield `PermissionError`,
regardless of `must_exist`); and `NotFound` can only arise after every
earlier check has passed, so an invalid path never yields `NotFound`. -/
theorem C5_validation_order (env : Env) (fs : FS) (f : String) (me : Bool) :
    (blankCheck f = true →
      resolve_workspace_file env fs f me = .error (.valueError emptyMsg)) ∧
    (∀ e, blankCheck f = false → get_workspace env fs = .error e →
      resolve_workspace_file env fs f me = .error e) ∧
    (∀ ws, blankCheck f = false → get_workspace env fs = .ok ws →
      pyIsabs f = true →
      resolve_workspace_file env fs f me = .error (.permissionError absMsg)) ∧
    (∀ ws, blankCheck f = false → get_workspace env fs = .ok ws →
      pyIsabs f = false → travCheck (normpath f) = true →
      resolve_workspace_file env fs f me = .error (.permissionError travMsg)) ∧
    (∀ ws e, blankCheck f = false → get_workspace env fs = .ok ws →
      pyIsabs f = false → travCheck (normpath f) = false →
      commonpath2 (realpathS fs env.cwd (pyJoin2 ws (normpath f))) ws = .error e →
      resolve_workspace_file env fs f me = .error (.permissionError driveMsg)) ∧
    (∀ ws common, blankCheck f = false → get_workspace env fs = .ok ws →
      pyIsabs f = false → travCheck (normpath f) = false →
      commonpath2 (realpathS fs env.cwd (pyJoin2 ws (normpath f))) ws = .ok common →
      common ≠ ws →
      resolve_workspace_file env fs f me = .error (.permissionError outsideMsg)) ∧
    (∀ m, resolve_workspace_file env fs f me = .error (.fileNotFoundError m) →
      me = true ∧ blankCheck f = false ∧ pyIsabs f = false ∧
      travCheck (normpath f) = false ∧
      ∃ ws, get_workspace env fs = .ok ws ∧
        commonpath2 (realpathS fs env.cwd (pyJoin2 ws (normpath f))) ws = .ok ws ∧
        pyExists fs env.cwd (realpathS fs env.cwd (pyJoin2 ws (normpath f))) = false ∧
        m = nfMsg f) :=
  ⟨fun hb => resolve_blank_eq env fs f me hb,
   fun e hb hgw => resolve_gwerr_eq env fs f me e hb hgw,
   fun ws _ hgw habs => resolve_abs_eq env fs f me ws hgw habs,
   fun ws hb hgw habs htr => resolve_trav_eq env fs f me ws hb hgw habs htr,
   fun ws e hb hgw habs htr hcp => resolve_drive_eq env fs f me ws e hb hgw habs htr hcp,
   fun ws common hb hgw habs htr hcp hne =>
     resolve_outside_eq env fs f me ws common hb hgw habs htr hcp hne,
   fun m h => resolve_nf_inv env fs f me m h⟩

/-- Witness for C5: with an unconfigured root, a blank filename still
yields the `ValueError`, exercising the first rule in the order. -/
theorem C5_validation_order_witness :
    resolve_workspace_file envU fsA " " true = .error (.valueError emptyMsg) :=
  (C5_validation_order envU fsA " " true).1 (by decide)

/-! ### C2 -/

/-- Filesystem with a symlink inside the workspace that points outside
it; one of the symlinks is named by a single space. -/
def fsB : FS :=
  [("/", .dir), ("/srv", .dir), ("/srv/ws", .dir),
   ("/srv/ws/ ", .symlink "/etc/passwd"),
   ("/srv/ws/evil", .symlink "/etc/passwd"),
   ("/etc", .dir), ("/etc/passwd", .file)]

/-- C2 counterexample: the relative filename `" "` (a single space) names
a symlink inside the workspace whose resolution lands outside the root,
yet `resolve_workspace_file` fails with the empty-filename `ValueError`,
not with `PermissionError`, because the whitespace check fires first. -/
theorem C2_counterexample :
    get_workspace envA fsB = .ok "/srv/ws" ∧
    pyIsabs " " = false ∧
    realpathS fsB envA.cwd (pyJoin2 "/srv/ws" (normpath " ")) = "/etc/passwd" ∧
    commonpath2 (realpathS fsB envA.cwd (pyJoin2 "/srv/ws" (normpath " "))) "/srv/ws" ≠
      .ok "/srv/ws" ∧
    resolve_workspace_file envA fsB " " false = .error (.valueError emptyMsg) :=
  ⟨by decide, by decide, by decide, by decide, by decide⟩

/-- C2 (amended): for every relative filename that is not empty or
whitespace-only and whose normalized form, joined onto the workspace root
and resolved through symlinks, fails the containment check (in particular
a symlink inside the workspace pointing outside it),
`resolve_workspace_file` fails with `PermissionError` rather than
returning a path, for either `must_exist` flag. -/
theorem C2_symlink_escape_denied (env : Env) (fs : FS) (f : String) (me : Bool)
    (ws : String) (hgw : get_workspace env fs = .ok ws)
    (hbl : blankCheck f = false)
    (habs : pyIsabs f = false)
    (hout : commonpath2 (realpathS fs env.cwd (pyJoin2 ws (normpath f))) ws ≠ .ok ws) :
    ∃ m, resolve_workspace_file env fs f me = .error (.permissionError m) := by
  by_cases htr : travCheck (normpath f) = true
  · exact ⟨travMsg, resolve_trav_eq env fs f me ws hbl hgw habs htr⟩
  · have htr' : travCheck (normpath f) = false := by
      revert htr; cases travCheck (normpath f) <;> simp
    cases hcp : commonpath2 (realpathS fs env.cwd (pyJoin2 ws (normpath f))) ws with
    | error e =>
      exact ⟨driveMsg, resolve_drive_eq env fs f me ws e hbl hgw habs htr' hcp⟩
    | ok common =>
      have hne : common ≠ ws := by
        intro hcc
        rw [hcc] at hcp
        exact hout hcp
      exact ⟨outsideMsg, resolve_outside_eq env fs f me ws common hbl hgw habs htr' hcp hne⟩

/-- Witness for the amended C2: the symlink `evil` points at
`/etc/passwd`; resolving it is denied. -/
theorem C2_symlink_escape_denied_witness :
    ∃ m, resolve_workspace_file envA fsB "evil" false =
      .error (.permissionError m) :=
  C2_symlink_escape_denied envA fsB "evil" false "/srv/ws"
    (by decide) (by decide) (by decide) (by decide)

/-! ### C8 -/

/-- The degenerate environment whose workspace root is the filesystem
root itself. -/
def envC : Env := ⟨some "/", none, "/"⟩

/-- Its filesystem: just the root directory. -/
def fsC : FS := [("/", .dir)]

/-- The positive direction of C8: a validly-contained but nonexistent
filename with `must_exist` fails with `FileNotFoundError` whose message
is exactly the fixed prefix followed by the caller-supplied filename. -/
theorem resolve_nf_eq (env : Env) (fs : FS) (f : String)
    (ws : String) (hbl : blankCheck f = false)
    (hgw : get_workspace env fs = .ok ws)
    (habs : pyIsabs f = false) (htr : travCheck (normpath f) = false)
    (hcp : commonpath2 (realpathS fs env.cwd (pyJoin2 ws (normpath f))) ws = .ok ws)
    (hex : pyExists fs env.cwd (realpathS fs env.cwd (pyJoin2 ws (normpath f))) = false) :
    resolve_workspace_file env fs f true = .error (.fileNotFoundError (nfMsg f)) := by
  unfold resolve_workspace_file
  rw [hbl, hgw]
  simp only []
  rw [habs]
  simp only [Bool.false_eq_true, if_false, htr]
  rw [hcp]
  simp [hex]

/-- C8 counterexample: with the workspace root configured as `/` and the
filename `./a`, the `NotFound` message (`... ./a`) contains the resolved
absolute path `/a` as a substring, contradicting the claim that it never
does. -/
theorem C8_counterexample :
    get_workspace envC fsC = .ok "/" ∧
    realpathS fsC envC.cwd (pyJoin2 "/" (normpath "./a")) = "/a" ∧
    resolve_workspace_file envC fsC "./a" true =
      .error (.fileNotFoundError (nfMsg "./a")) ∧
    strContains (nfMsg "./a") "/a" = true :=
  ⟨by decide, by decide, by decide, by decide⟩

/-- C8 (amended): for every validly-contained filename that does not
exist on the filesystem, `resolve_workspace_file(f, true)` fails with
`NotFound` and the error message is exactly the fixed prefix plus the
literal caller-supplied filename (so it always contains `f`; it is not
built from the resolved absolute path, although for degenerate roots the
resolved path can still occur inside the caller-supplied text). -/
theorem C8_notfound_literal (env : Env) (fs : FS) (f : String)
    (ws : String) (hbl : blankCheck f = false)
    (hgw : get_workspace env fs = .ok ws)
    (habs : pyIsabs f = false) (htr : travCheck (normpath f) = false)
    (hcp : commonpath2 (realpathS fs env.cwd (pyJoin2 ws (normpath f))) ws = .ok ws)
    (hex : pyExists fs env.cwd (realpathS fs env.cwd (pyJoin2 ws (normpath f))) = false) :
    resolve_workspace_file env fs f true =
      .error (.fileNotFoundError ("File not found in workspace: " ++ f)) ∧
    strContains ("File not found in workspace: " ++ f) f = true := by
  constructor
  · exact resolve_nf_eq env fs f ws hbl hgw habs htr hcp hex
  · unfold strContains
    refine (infB_iff _ _).mpr ⟨("File not found in workspace: " : String).data, [], ?_⟩
    rw [String.data_append]
    simp

/-- Witness for the amended C8 at a concrete nonexistent file. -/
theorem C8_notfound_literal_witness :
    resolve_workspace_file envA fsA "missing.txt" true =
      .error (.fileNotFoundError ("File not found in workspace: " ++ "missing.txt")) ∧
    strContains ("File not found in workspace: " ++ "missing.txt") "missing.txt" = true :=
  C8_notfound_literal envA fsA "missing.txt" "/srv/ws"
    (by decide) (by decide) (by decide) (by decide) (by decide) (by decide)

/-! ### C9 -/

/-- Workspace root `/a`. -/
def envD : Env := ⟨some "/a", none, "/"⟩

/-- Its filesystem. -/
def fsD : FS := [("/", .dir), ("/a", .dir)]

/-- C9 counterexample: with root `/a` and filename `./a`, the guard's
`NotFound` message contains the canonical workspace root `/a` as a
substring (inside the caller-supplied text), contradicting the claim
that no failure message ever contains the root. -/
theorem C9_counterexample :
    get_workspace envD fsD = .ok "/a" ∧
    resolve_workspace_file envD fsD "./a" true =
      .error (.fileNotFoundError (nfMsg "./a")) ∧
    strContains (nfMsg "./a") "/a" = true :=
  ⟨by decide, by decide, by decide⟩

/-- C9 (amended): every failure message of the guard operations is drawn
from a fixed set that names the violated rule: the empty-filename text,
the two configuration texts (the second interpolates only the raw
configured `WORKSPACE_PATH` value), the absolute-path, traversal,
cross-drive and escapes-workspace texts, or the not-found text built from
the caller-supplied filename.  The canonical resolved workspace root is
never interpolated into a message (it can only occur as a substring of
caller-supplied text). -/
theorem C9_error_messages (env : Env) (fs : FS) (f : String) (me : Bool) :
    (∀ e, get_workspace env fs = .error e →
      e = .permissionError cfgUnsetMsg ∨
      ∃ w, env.workspace_path = some w ∧ e = .permissionError (cfgBadMsg w)) ∧
    (∀ e, resolve_workspace_file env fs f me = .error e →
      e = .valueError emptyMsg ∨
      e = .permissionError cfgUnsetMsg ∨
      (∃ w, env.workspace_path = some w ∧ e = .permissionError (cfgBadMsg w)) ∨
      e = .permissionError absMsg ∨
      e = .permissionError travMsg ∨
      e = .permissionError driveMsg ∨
      e = .permissionError outsideMsg ∨
      e = .fileNotFoundError (nfMsg f)) := by
  have hgwmsg : ∀ e, get_workspace env fs = .error e →
      e = .permissionError cfgUnsetMsg ∨
      ∃ w, env.workspace_path = some w ∧ e = .permissionError (cfgBadMsg w) := by
    intro e h
    unfold get_workspace at h
    split at h
    · left
      injection h with h1
      exact h1.symm
    · rename_i w hw
      split at h
      · left
        injection h with h1
        exact h1.symm
      · simp only [] at h
        split at h
        · exact absurd h (by simp)
        · right
          exact ⟨w, hw, by injection h with h1; exact h1.symm⟩
  refine ⟨hgwmsg, ?_⟩
  intro e h
  unfold resolve_workspace_file at h
  split at h
  · left
    injection h with h1
    exact h1.symm
  · split at h
    · rename_i e0 hgw0
      injection h with h1
      rcases hgwmsg e0 hgw0 with hc | ⟨w, hw, hc⟩
      · right; left
        rw [← h1, hc]
      · right; right; left
        exact ⟨w, hw, by rw [← h1, hc]⟩
    · simp only [] at h
      split at h
      · right; right; right; left
        injection h with h1
        exact h1.symm
      · split at h
        · right; right; right; right; left
          injection h with h1
          exact h1.symm
        · split at h
          · right; right; right; right; right; left
            injection h with h1
            exact h1.symm
          · split at h
            · right; right; right; right; right; right; left
              injection h with h1
              exact h1.symm
            · split at h
              · right; right; right; right; right; right; right
                injection h with h1
                exact h1.symm
              · exact absurd h (by simp)

/-- Witness for the amended C9: an unconfigured root produces exactly the
fixed configuration message. -/
theorem C9_error_messages_witness :
    (.permissionError cfgUnsetMsg : PyErr) = .permissionError cfgUnsetMsg ∨
    ∃ w, envU.workspace_path = some w ∧
      (.permissionError cfgUnsetMsg : PyErr) = .permissionError (cfgBadMsg w) :=
  (C9_error_messages envU fsA "x.txt" false).1 (.permissionError cfgUnsetMsg) (by decide)

/-! ### Support lemmas for the round-trip property (C6) -/

theorem str_ext {s t : String} (h : s.data = t.data) : s = t := by
  cases s
  cases t
  exact congrArg String.mk h

theorem str_ne_empty {s : String} (h : s.data ≠ []) : s ≠ "" := by
  intro hs
  rw [hs] at h
  exact h rfl

theorem filter_pass₁ (cs : List (List Char)) (h : ∀ c ∈ cs, c ≠ []) :
    cs.filter (fun c => c ≠ []) = cs := by
  induction cs with
  | nil => rfl
  | cons c cs' ih =>
    rw [List.filter_cons_of_pos (by simp [h c (by simp)])]
    rw [ih (fun x hx => h x (List.mem_cons_of_mem _ hx))]

theorem filter_pass₂ (cs : List (List Char)) (h : ∀ c ∈ cs, c ≠ [] ∧ c ≠ ['.']) :
    cs.filter (fun c => c ≠ [] ∧ c ≠ ['.']) = cs := by
  induction cs with
  | nil => rfl
  | cons c cs' ih =>
    rw [List.filter_cons_of_pos (by simp [(h c (by simp)).1, (h c (by simp)).2])]
    rw [ih (fun x hx => h x (List.mem_cons_of_mem _ hx))]

theorem filter_nil_cons₁ (cs : List (List Char)) :
    ([] :: cs).filter (fun c => c ≠ []) = cs.filter (fun c => c ≠ []) := by
  rw [List.filter_cons_of_neg (by simp)]

theorem filter_nil_cons₂ (cs : List (List Char)) :
    ([] :: cs).filter (fun c => c ≠ [] ∧ c ≠ ['.']) =
      cs.filter (fun c => c ≠ [] ∧ c ≠ ['.']) := by
  rw [List.filter_cons_of_neg (by simp)]

/-- Splitting a canonical absolute path with at least one component
recovers its components. -/
theorem split_slash_intercalate (cs : List (List Char)) (h : GoodComps cs)
    (h0 : cs ≠ []) :
    splitChar '/' ('/' :: List.intercalate ['/'] cs) = [] :: cs := by
  cases cs with
  | nil => exact absurd rfl h0
  | cons c cs' =>
    rw [splitChar_cons_sep]
    rw [split_intercalate '/' (c :: cs') (by simp)
      (fun x hx => (h x hx).2.2.2)]

/-- A canonical absolute path with at least one component does not end
with a slash. -/
theorem abs_getLast_ne_slash (cs : List (List Char)) (h : GoodComps cs)
    (h0 : cs ≠ []) :
    ∃ ch, ('/' :: List.intercalate ['/'] cs).getLast? = some ch ∧ ch ≠ '/' := by
  obtain ⟨ch, hch, hne⟩ := intercalate_getLast_ne_sep '/' cs h0
    (fun c hc => ⟨(h c hc).1, (h c hc).2.2.2⟩)
  have hnn : List.intercalate ['/'] cs ≠ [] := by
    intro hcontra
    rw [hcontra] at hch
    simp at hch
  exact ⟨ch, by rw [getLast?_cons_of_ne_nil _ hnn, hch], hne⟩

theorem joinL_root (b : List Char) (hb : pyIsabsL b = false) :
    joinL ['/'] b = '/' :: b := by
  unfold joinL
  rw [if_neg (by simp [hb]), if_pos (by simp)]
  rfl

theorem joinL_noslash (a b : List Char) (ha : a ≠ [])
    (hb : pyIsabsL b = false)
    (hl : ∀ ch, a.getLast? = some ch → ch ≠ '/') :
    joinL a b = a ++ '/' :: b := by
  unfold joinL
  rw [if_neg (by simp [hb])]
  obtain ⟨ch, hch⟩ := exists_getLast? ha
  rw [if_neg (by simp [ha, hch, hl ch hch])]

/-- Normalizing a canonical absolute path followed by `/.` gives the path
back. -/
theorem normpath_slashdot (cs : List (List Char)) (h : GoodComps cs)
    (h0 : cs ≠ []) :
    normpathL ('/' :: (List.intercalate ['/'] cs ++ ['/', '.'])) =
      '/' :: List.intercalate ['/'] cs := by
  have happ : List.intercalate ['/'] cs ++ ['/', '.'] =
      List.intercalate ['/'] (cs ++ [['.']]) := by
    rw [intercalate_append₂ '/' cs [['.']] h0 (by simp), intercalate_single]
  rw [happ]
  cases cs with
  | nil => exact absurd rfl h0
  | cons c cs' =>
    obtain ⟨g1, g2, g3, g4⟩ := h c (by simp)
    have hl : ('/' :: List.intercalate ['/'] ((c :: cs') ++ [['.']])) ≠ [] := by simp
    have hhd := intercalate_head? '/' c (cs' ++ [['.']]) g1
    have htake : ('/' :: List.intercalate ['/'] ((c :: cs') ++ [['.']])).take 2 ≠
        ['/', '/'] := by
      intro hcontra
      rw [List.cons_append] at hcontra
      cases hint : List.intercalate ['/'] (c :: (cs' ++ [['.']])) with
      | nil => exact (intercalate_ne_nil '/' c _ g1) hint
      | cons y ys =>
        rw [hint] at hcontra hhd
        simp only [List.take] at hcontra
        injection hcontra with _ hrest
        injection hrest with hy
        have hyc : y ∈ c := head?_mem' hhd.symm
        rw [hy] at hyc
        exact g4 hyc
    have habs : pyIsabsL ('/' :: List.intercalate ['/'] ((c :: cs') ++ [['.']])) = true := rfl
    have hk : initSlashes ('/' :: List.intercalate ['/'] ((c :: cs') ++ [['.']])) = 1 := by
      unfold initSlashes
      rw [if_pos habs, if_neg (by intro hcontra; exact htake hcontra.1)]
    have hsplit : splitChar '/' ('/' :: List.intercalate ['/'] ((c :: cs') ++ [['.']])) =
        [] :: ((c :: cs') ++ [['.']]) := by
      rw [splitChar_cons_sep]
      rw [split_intercalate '/' _ (by simp) ?_]
      intro x hx
      rcases List.mem_append.mp hx with hx' | hx'
      · exact (h x hx').2.2.2
      · rcases List.mem_singleton.mp hx' with rfl
        simp
    unfold normpathL
    rw [if_neg hl, hsplit, hk]
    have hfold : List.foldl (normStep 1) [] ([] :: ((c :: cs') ++ [['.']])) = c :: cs' := by
      rw [List.foldl_cons]
      have hskip : normStep 1 [] [] = [] := by unfold normStep; simp
      rw [hskip, List.foldl_append, normFold_append 1 (c :: cs') h []]
      simp only [List.nil_append, List.foldl_cons, List.foldl_nil]
      unfold normStep
      rw [if_pos (Or.inr rfl)]
    rw [hfold]
    simp [List.replicate]

theorem filter_split_slash (cs : List (List Char)) (h : GoodComps cs) :
    (splitChar '/' ('/' :: List.intercalate ['/'] cs)).filter (fun c => c ≠ []) = cs := by
  cases cs with
  | nil => decide
  | cons c cs' =>
    rw [split_slash_intercalate _ h (by simp), filter_nil_cons₁,
      filter_pass₁ _ (fun x hx => (h x hx).1)]

theorem filter2_split_slash (cs : List (List Char)) (h : GoodComps cs) :
    (splitChar '/' ('/' :: List.intercalate ['/'] cs)).filter
      (fun c => c ≠ [] ∧ c ≠ ['.']) = cs := by
  cases cs with
  | nil => decide
  | cons c cs' =>
    rw [split_slash_intercalate _ h (by simp), filter_nil_cons₂,
      filter_pass₂ _ (fun x hx => ⟨(h x hx).1, (h x hx).2.1⟩)]

/-- Joining a relative canonical remainder back onto a canonical absolute
path and normalizing concatenates the component lists. -/
theorem join_reconstruct (cs ds : List (List Char)) (hcs : GoodComps cs)
    (hds : GoodComps ds) (hd0 : ds ≠ []) :
    normpathL (joinL ('/' :: List.intercalate ['/'] cs) (List.intercalate ['/'] ds)) =
      '/' :: List.intercalate ['/'] (cs ++ ds) := by
  have hdabs : pyIsabsL (List.intercalate ['/'] ds) = false := by
    cases ds with
    | nil => exact absurd rfl hd0
    | cons d ds' =>
      exact not_abs_of_head_free _ d (hds d (by simp)).1 (hds d (by simp)).2.2.2
        (intercalate_head? '/' d ds' (hds d (by simp)).1)
  cases cs with
  | nil =>
    rw [show ('/' :: List.intercalate ['/'] ([] : List (List Char))) = ['/'] from rfl]
    rw [joinL_root _ hdabs]
    rw [show (([] : List (List Char)) ++ ds) = ds from rfl]
    exact normpath_reconstruct ds hds
  | cons c cs' =>
    obtain ⟨ch, hch, hchne⟩ := abs_getLast_ne_slash (c :: cs') hcs (by simp)
    rw [joinL_noslash _ _ (by simp) hdabs
      (fun ch' hch' => by rw [hch] at hch'; injection hch' with he; rw [← he]; exact hchne)]
    rw [show (('/' :: List.intercalate ['/'] (c :: cs')) ++ '/' :: List.intercalate ['/'] ds)
        = '/' :: (List.intercalate ['/'] (c :: cs') ++ '/' :: List.intercalate ['/'] ds)
        from rfl]
    rw [show (List.intercalate ['/'] (c :: cs') ++ '/' :: List.intercalate ['/'] ds)
        = List.intercalate ['/'] ((c :: cs') ++ ds) from by
      rw [intercalate_append₂ '/' (c :: cs') ds (by simp) hd0]]
    exact normpath_reconstruct _ (by
      intro x hx
      rcases List.mem_append.mp hx with hx' | hx'
      · exact hcs x hx'
      · exact hds x hx')

/-- Joining `.` back onto a canonical absolute path and normalizing gives
the path back. -/
theorem join_dot_reconstruct (cs : List (List Char)) (hcs : GoodComps cs) :
    normpathL (joinL ('/' :: List.intercalate ['/'] cs) ['.']) =
      '/' :: List.intercalate ['/'] cs := by
  have hdabs : pyIsabsL ['.'] = false := by decide
  cases cs with
  | nil =>
    rw [show ('/' :: List.intercalate ['/'] ([] : List (List Char))) = ['/'] from rfl,
      joinL_root _ hdabs]
    decide
  | cons c cs' =>
    obtain ⟨ch, hch, hchne⟩ := abs_getLast_ne_slash (c :: cs') hcs (by simp)
    rw [joinL_noslash _ _ (by simp) hdabs
      (fun ch' hch' => by rw [hch] at hch'; injection hch' with he; rw [← he]; exact hchne)]
    rw [show (('/' :: List.intercalate ['/'] (c :: cs')) ++ '/' :: ['.'])
        = '/' :: (List.intercalate ['/'] (c :: cs') ++ ['/', '.']) from rfl]
    exact normpath_slashdot (c :: cs') hcs (by simp)

/-! ### C6 -/

/-- Filesystem containing a literal file whose name begins with two
dots. -/
def fsE : FS :=
  [("/", .dir), ("/srv", .dir), ("/srv/ws", .dir), ("/srv/ws/..d", .file)]

/-- C6 counterexample: the filename `..d` resolves (after join and
symlink resolution) to `/srv/ws/..d`, squarely under the workspace root,
yet `resolve_workspace_file` rejects it with the traversal
`PermissionError` instead of returning that canonical path with no
error. -/
theorem C6_counterexample :
    get_workspace envA fsE = .ok "/srv/ws" ∧
    realpathS fsE envA.cwd (pyJoin2 "/srv/ws" (normpath "..d")) = "/srv/ws/..d" ∧
    commonpath2 "/srv/ws/..d" "/srv/ws" = .ok "/srv/ws" ∧
    resolve_workspace_file envA fsE "..d" false =
      .error (.permissionError travMsg) :=
  ⟨by decide, by decide, by decide, by decide⟩

/-- C6 (amended): for every filename that passes the blank, absolute and
traversal checks and whose canonical resolution `p` lies under the
workspace root, `resolve_workspace_file(f, false)` returns `p` with no
error; moreover, unless the resolution went through an unresolvable
symlink loop (leaving `p` with a leading double slash), `to_filename`
maps `p` to the workspace-relative remainder `r` computed by `relpath`,
and — when `r` does not itself start with two dots — rejoining `r` to
the root and normalizing reproduces `p` exactly (the round-trip names the
same workspace file). -/
theorem C6_roundtrip (env : Env) (fs : FS) (f : String) (p ws : String)
    (hcwd : pyIsabs env.cwd = true)
    (hgw : get_workspace env fs = .ok ws)
    (hbl : blankCheck f = false)
    (habs : pyIsabs f = false)
    (htr : travCheck (normpath f) = false)
    (hp : p = realpathS fs env.cwd (pyJoin2 ws (normpath f)))
    (hcp : commonpath2 p ws = .ok ws) :
    resolve_workspace_file env fs f false = .ok p ∧
    (pyStartsWith p "//" = false →
      ∃ r, pyRelpath env.cwd p ws = .ok r ∧
        (pyStartsWith r ".." = false →
          to_filename env fs p = r ∧ normpath (pyJoin2 ws r) = p)) := by
  constructor
  · rw [hp]
    exact resolve_ok_eq env fs f ws hbl hgw habs htr (by rw [← hp]; exact hcp)
  · intro hdd
    have hpabs : pyIsabsL p.data = true := by
      rw [hp]
      exact realpathS_isabs fs env.cwd _ hcwd
    have hpnorm : ∃ x, p.data = normpathL x := by
      rw [hp]
      exact realpathS_norm fs env.cwd _
    have hpdd : preB ['/', '/'] p.data = false := hdd
    obtain ⟨x, hx⟩ := hpnorm
    obtain ⟨pc, hpcG, hpe0⟩ :=
      normpath_shape x (by rw [← hx]; exact hpabs) (by rw [← hx]; exact hpdd)
    have hpE : p.data = '/' :: List.intercalate ['/'] pc := by rw [hx, hpe0]
    have hpfix : normpathL p.data = p.data := normpathL_fix p.data ⟨x, hx⟩ hpabs hpdd
    have hS1v : (splitChar '/' p.data).filter (fun c => c ≠ [] ∧ c ≠ ['.']) = pc := by
      rw [hpE]
      exact filter2_split_slash pc hpcG
    have hEx : ∃ common t, GoodComps common ∧
        ws.data = '/' :: List.intercalate ['/'] common ∧ pc = common ++ t := by
      unfold commonpath2 at hcp
      split at hcp
      · exact absurd hcp (by simp)
      · simp only [] at hcp
        injection hcp with hws
        rw [hS1v] at hws
        obtain ⟨t, ht⟩ := cp_pre_left pc
          ((splitChar '/' ws.data).filter (fun c => c ≠ [] ∧ c ≠ ['.']))
        refine ⟨commonPrefixL pc
          ((splitChar '/' ws.data).filter (fun c => c ≠ [] ∧ c ≠ ['.'])), t,
          ?_, ?_, ht⟩
        · intro cch hc
          exact hpcG cch (cp_subset_left hc)
        · exact congrArg String.data hws.symm
    obtain ⟨common, t, hcomG, hwsE, ht⟩ := hEx
    have hpne : p ≠ "" := str_ne_empty (by rw [hpE]; simp)
    have hwabs : pyIsabsL ws.data = true := by rw [hwsE]; rfl
    have hwsfix : normpathL ws.data = ws.data := by
      rw [hwsE]
      exact normpath_reconstruct common hcomG
    have habsws : abspathS env.cwd ws = ws := by
      unfold abspathS
      rw [if_pos hwabs, hwsfix]
    have habsp : abspathS env.cwd p = p := by
      unfold abspathS
      rw [if_pos hpabs, hpfix]
    have hstartlist : (splitChar '/' ws.data).filter (fun c => c ≠ []) = common := by
      rw [hwsE]
      exact filter_split_slash common hcomG
    have hpathlist : (splitChar '/' p.data).filter (fun c => c ≠ []) = pc := by
      rw [hpE]
      exact filter_split_slash pc hpcG
    have hi : (commonPrefixL common pc).length = common.length := by
      rw [ht, cp_refl_append]
    have hdrop : pc.drop common.length = t := by
      rw [ht]
      exact List.drop_left _ _
    have hrel : pyRelpath env.cwd p ws =
        .ok (if t = [] then "." else ⟨List.intercalate ['/'] t⟩) := by
      unfold pyRelpath
      rw [if_neg hpne]
      simp only []
      rw [habsws, habsp, hstartlist, hpathlist, hi, hdrop, Nat.sub_self,
        List.replicate_zero, List.nil_append]
      cases t with
      | nil => rfl
      | cons d ds => rfl
    refine ⟨_, hrel, ?_⟩
    intro hstart
    constructor
    · unfold to_filename
      rw [if_neg hpne, hgw]
      simp only []
      rw [hrel]
      simp only []
      rw [if_neg (by simp [hstart])]
    · cases t with
      | nil =>
        show normpath (pyJoin2 ws ".") = p
        apply str_ext
        show normpathL (joinL ws.data ['.']) = p.data
        have hpcw : pc = common := by rw [ht]; simp
        rw [hwsE, hpE, hpcw]
        exact join_dot_reconstruct common hcomG
      | cons d ds =>
        show normpath (pyJoin2 ws ⟨List.intercalate ['/'] (d :: ds)⟩) = p
        apply str_ext
        show normpathL (joinL ws.data (List.intercalate ['/'] (d :: ds))) = p.data
        rw [hwsE, hpE, ht]
        exact join_reconstruct common (d :: ds) hcomG
          (fun z hz => hpcG z (by rw [ht]; exact List.mem_append_right _ hz))
          (by simp)

/-- Witness for the amended C6 at a concrete nested file. -/
theorem C6_roundtrip_witness :
    resolve_workspace_file envA fsA "docs/q.pdf" false = .ok "/srv/ws/docs/q.pdf" ∧
    to_filename envA fsA "/srv/ws/docs/q.pdf" = "docs/q.pdf" ∧
    normpath (pyJoin2 "/srv/ws" "docs/q.pdf") = "/srv/ws/docs/q.pdf" := by
  have h := C6_roundtrip envA fsA "docs/q.pdf" "/srv/ws/docs/q.pdf" "/srv/ws"
    (by decide) (by decide) (by decide) (by decide) (by decide) (by decide) (by decide)
  refine ⟨h.1, ?_⟩
  obtain ⟨r, hr, h2⟩ := h.2 (by decide)
  have her : r = "docs/q.pdf" := by
    have he : pyRelpath envA.cwd "/srv/ws/docs/q.pdf" "/srv/ws" = .ok "docs/q.pdf" := by
      decide
    rw [he] at hr
    injection hr with he2
    exact he2.symm
  rw [her] at h2
  have h3 := h2 (by decide)
  exact ⟨h3.1, h3.2⟩

end WorkspaceGuard
